import Mathlib

/-!
Verification of the snqueue virtual-queue correlation engine
(`src/snqueue/service/client.py`) and its SQS transport adapter
(`src/snqueue/boto3_clients/sqs_client.py`).

The engine (`SqsVirtualQueueClient`) runs under single-threaded cooperative
asyncio scheduling: every block of code between two `await` points executes
atomically.  We therefore embed the engine as a state machine whose steps are
exactly those atomic blocks:

* `registerStep`   — line 105: `self._waiting_for_polling.add(message_id)`;
* `scanStep`       — lines 107-116: the scan of `_inqueue_messages`, which on
  a match removes the message, appends it to `_processed_messages`, removes
  the waiter id, and returns the message, all without a suspension point;
* `pollStep`       — `_poll_messages` (lines 73-98), which contains no
  `await` and hence runs atomically;
* `aexitStep`      — `__aexit__` (lines 58-63);
* `aenterStep`     — `__aenter__` (lines 51-56);
* `cancelStep`     — delivery of a timeout/cancellation inside
  `_get_response`: the coroutine has no try/except/finally, so unwinding
  performs no state mutation at all.

Messages are modelled as payloads carrying a ghost tag (`Tagged`): each pull
occurrence from the transport is given a fresh tag, so "the same raw message"
means "the same pull occurrence".  The state also carries two ghost histories:
`deleted` (every message ever passed to `delete_messages`, in order) and
`claims` (every (waiter, message) pair ever returned by a scan).
-/

namespace Snqueue

/-- A raw SQS message payload `M` together with a ghost identity tag assigned
at pull time (one tag per pull occurrence). -/
structure Tagged (M : Type) where
  tag : Nat
  payload : M
deriving Repr, DecidableEq

/-- Matcher contract of §4.2: `match_fn(message_id, raw_sqs_message) -> bool`,
a pure predicate. -/
def MatchFn (M : Type) : Type := String → M → Bool

/-- State of one `SqsVirtualQueueClient` instance, plus ghost history fields.
`inqueue` is `_inqueue_messages`, `processed` is `_processed_messages`,
`waiting` is `_waiting_for_polling` (a Python set, modelled as a
duplicate-free list), `counter` is the next fresh ghost tag, `deleted` is the
history of everything ever handed to `SqsClient.delete_messages`, and
`claims` is the history of scan results returned to waiters. -/
structure EngineState (M : Type) where
  inqueue : List (Tagged M)
  processed : List (Tagged M)
  waiting : List String
  counter : Nat
  deleted : List (Tagged M)
  claims : List (String × Tagged M)
deriving Repr, DecidableEq

/-- The state `__aenter__` produces on a fresh instance: all three pools
empty (client.py lines 51-56). -/
def initState (M : Type) : EngineState M :=
  ⟨[], [], [], 0, [], []⟩

/-- `self._waiting_for_polling.add(message_id)` (client.py line 105):
set insertion. -/
def registerStep {M : Type} (w : String) (s : EngineState M) : EngineState M :=
  if w ∈ s.waiting then s else { s with waiting := w :: s.waiting }

/-- The scan loop of `_get_response` (client.py lines 110-113): walk the
queue in order; at the first index whose message matches, return it together
with `queue[:i] + queue[i+1:]`. -/
def scanQueue {M : Type} (mf : MatchFn M) (w : String) :
    List (Tagged M) → Option (Tagged M × List (Tagged M))
  | [] => Option.none
  | m :: rest =>
    if mf w m.payload then some (m, rest)
    else
      match scanQueue mf w rest with
      | some (x, rest2) => some (x, m :: rest2)
      | Option.none => Option.none

/-- One full pass of the match block in `_get_response` (client.py lines
107-116): on a match, atomically remove the message from the pool, append it
to `_processed_messages`, remove the waiter from `_waiting_for_polling`, and
return the message; otherwise leave the state untouched. -/
def scanStep {M : Type} (mf : MatchFn M) (w : String) (s : EngineState M) :
    Option (Tagged M) × EngineState M :=
  match scanQueue mf w s.inqueue with
  | Option.none => (Option.none, s)
  | some (m, rest) =>
    (some m,
     { s with
        inqueue := rest,
        processed := s.processed ++ [m],
        waiting := s.waiting.erase w,
        claims := s.claims ++ [(w, m)] })

/-- The inner loop of `_poll_messages` (client.py lines 88-93): test the
message against each waiting id, with `break` on the first hit; equal to
`any`. -/
def innerScan {M : Type} (mf : MatchFn M) : List String → M → Bool
  | [], _ => false
  | w :: ws, m => if mf w m then true else innerScan mf ws m

/-- The outer loop of `_poll_messages` (client.py lines 85-95): messages
matching some waiting id go to the pool (in pull order), the rest are
collected as `unmatched` (in pull order). -/
def classify {M : Type} (mf : MatchFn M) (waiting : List String) :
    List (Tagged M) → List (Tagged M) × List (Tagged M)
  | [] => ([], [])
  | m :: rest =>
    let p := classify mf waiting rest
    if innerScan mf waiting m.payload then (m :: p.1, p.2) else (p.1, m :: p.2)

/-- Assign fresh ghost tags `start, start+1, ...` to a pulled batch. -/
def tagAll {M : Type} (start : Nat) : List M → List (Tagged M)
  | [] => []
  | m :: rest => ⟨start, m⟩ :: tagAll (start + 1) rest

/-- Observable transport calls made by one `_poll_messages` run.
`deletedBatch` is the argument of the `delete_messages` call (`[]` when the
`if len(self._processed_messages)` guard skipped the call), `pulled` records
whether `pull_messages` was invoked, and `visChanged` is the argument of
`change_message_visibility_batch` (`[]` when the guard skipped it). -/
structure PollEvents (M : Type) where
  deletedBatch : List (Tagged M)
  pulled : Bool
  visChanged : List (Tagged M)
deriving Repr, DecidableEq

/-- The events of a `_poll_messages` run that returned at the
`if len(self._inqueue_messages)` guard: no transport call at all. -/
def noEvents (M : Type) : PollEvents M := ⟨[], false, []⟩

/-- `_poll_messages` (client.py lines 73-98).  If the pool is non-empty the
call returns immediately (lines 74-76).  Otherwise it deletes the processed
messages and clears that pool (lines 79-82), pulls a batch (line 84, the
batch and its fresh tags supplied here as `incoming`), partitions it against
the waiting set (lines 85-95), and visibility-changes the unmatched ones
(lines 96-98). -/
def pollStep {M : Type} (mf : MatchFn M) (incoming : List M) (s : EngineState M) :
    EngineState M × PollEvents M :=
  if s.inqueue.length ≠ 0 then (s, noEvents M)
  else
    let tagged := tagAll s.counter incoming
    let p := classify mf s.waiting tagged
    ({ s with
        inqueue := p.1,
        processed := [],
        deleted := s.deleted ++ s.processed,
        counter := s.counter + incoming.length },
     ⟨s.processed, true, p.2⟩)

/-- `__aexit__` (client.py lines 58-63): if `_processed_messages` is
non-empty, delete them all and clear the pool; the second component is the
batch handed to `delete_messages` (`[]` when no call was made). -/
def aexitStep {M : Type} (s : EngineState M) : EngineState M × List (Tagged M) :=
  if s.processed.length ≠ 0 then
    ({ s with processed := [], deleted := s.deleted ++ s.processed }, s.processed)
  else (s, [])

/-- `__aenter__` (client.py lines 51-56): unconditionally rebind all three
pools to fresh empty containers, whatever the previous state was. -/
def aenterStep {M : Type} (s : EngineState M) : EngineState M :=
  { s with inqueue := [], processed := [], waiting := [] }

/-- Delivery of `asyncio.wait_for` timeout cancellation inside
`_get_response` (client.py lines 100-119 and 136): the coroutine body has no
try/except/finally, so the `CancelledError` raised at the
`await asyncio.sleep(0)` suspension point unwinds without running any
cleanup — in particular `self._waiting_for_polling.remove(message_id)` on
line 115 is never reached.  The engine state is untouched. -/
def cancelStep {M : Type} (_w : String) (s : EngineState M) : EngineState M := s

/-- Engine states reachable from a fresh `async with` entry by any
interleaving of the atomic blocks above. -/
inductive Reachable {M : Type} (mf : MatchFn M) : EngineState M → Prop
  | init : Reachable mf (initState M)
  | register (w : String) (s : EngineState M) :
      Reachable mf s → Reachable mf (registerStep w s)
  | scan (w : String) (s : EngineState M) :
      Reachable mf s → Reachable mf (scanStep mf w s).2
  | poll (incoming : List M) (s : EngineState M) :
      Reachable mf s → Reachable mf (pollStep mf incoming s).1
  | aexit (s : EngineState M) :
      Reachable mf s → Reachable mf (aexitStep s).1
  | aenter (s : EngineState M) :
      Reachable mf s → Reachable mf (aenterStep s)
  | cancel (w : String) (s : EngineState M) :
      Reachable mf s → Reachable mf (cancelStep w s)

/-- Ghost tags of a message list. -/
def tags {M : Type} (l : List (Tagged M)) : List Nat :=
  l.map Tagged.tag

/-- Ghost tags of the messages in a claim history. -/
def claimTags {M : Type} (l : List (String × Tagged M)) : List Nat :=
  l.map (fun c => c.2.tag)

/-- The state invariant: all tags are below the fresh-tag counter, each pool
and each ghost history is duplicate-free, and pool membership is mutually
exclusive with having been processed, deleted, or claimed. -/
structure Inv {M : Type} (s : EngineState M) : Prop where
  inq_lt : ∀ t ∈ tags s.inqueue, t < s.counter
  proc_lt : ∀ t ∈ tags s.processed, t < s.counter
  del_lt : ∀ t ∈ tags s.deleted, t < s.counter
  cl_lt : ∀ t ∈ claimTags s.claims, t < s.counter
  inq_nd : (tags s.inqueue).Nodup
  proc_nd : (tags s.processed).Nodup
  del_nd : (tags s.deleted).Nodup
  cl_nd : (claimTags s.claims).Nodup
  inq_proc : ∀ t ∈ tags s.inqueue, t ∉ tags s.processed
  inq_del : ∀ t ∈ tags s.inqueue, t ∉ tags s.deleted
  inq_cl : ∀ t ∈ tags s.inqueue, t ∉ claimTags s.claims
  proc_del : ∀ t ∈ tags s.processed, t ∉ tags s.deleted

/-! ### Python value model and `default_match_fn` (client.py lines 16-26)

`default_match_fn` manipulates Python values: the raw message dict, the
result of `json.loads`, and strings.  `PyVal` models the Python/JSON value
domain; `PyErr` models the exceptions the involved stdlib operations raise:
`json.loads` raises `TypeError` on a non-string argument and
`json.JSONDecodeError` on unparsable text, and `.get` on a non-dict raises
`AttributeError`. -/

/-- Python/JSON values as used by `default_match_fn`. -/
inductive PyVal where
  | none
  | bool (b : Bool)
  | int (n : Int)
  | str (s : String)
  | list (xs : List PyVal)
  | dict (entries : List (String × PyVal))

/-- The exceptions arising in `default_match_fn`. -/
inductive PyErr where
  | typeError
  | jsonDecodeError
  | attributeError
deriving Repr, DecidableEq

/-- Skip JSON whitespace. -/
def skipWs : List Char → List Char
  | [] => []
  | c :: cs =>
    if [' ', '\n', '\t', '\r'].contains c then skipWs cs else c :: cs

/-- JSON string escape table (source escape, decoded character), covering the
subset exercised here. -/
def escTable : List (Char × Char) :=
  [('"', '"'), ('\\', '\\'), ('/', '/'), ('n', '\n'), ('t', '\t'), ('r', '\r')]

/-- Decode one escape sequence via the table. -/
def escChar (c : Char) : Option Char :=
  (escTable.find? (fun p => p.1 == c)).map (fun p => p.2)

/-- Require `lit` as a prefix of the input; return what follows it. -/
def dropLit : List Char → List Char → Option (List Char)
  | [], cs => some cs
  | _ :: _, [] => Option.none
  | l :: ls, c :: cs => if c == l then dropLit ls cs else Option.none

/-- Parse the body of a JSON string after its opening quote; returns the
characters and the remaining input after the closing quote. -/
def parseStrChars : List Char → Option (List Char × List Char)
  | [] => Option.none
  | '"' :: rest => some ([], rest)
  | '\\' :: [] => Option.none
  | '\\' :: c :: rest =>
    match escChar c with
    | some e => (parseStrChars rest).map (fun p => (e :: p.1, p.2))
    | Option.none => Option.none
  | c :: rest => (parseStrChars rest).map (fun p => (c :: p.1, p.2))

/-- Accumulate decimal digits. -/
def digitsAcc : Nat → List Char → Nat × List Char
  | acc, [] => (acc, [])
  | acc, c :: cs =>
    if c.isDigit then digitsAcc (acc * 10 + (c.toNat - 48)) cs else (acc, c :: cs)

/-- Parse a JSON number's digits (at least one required). -/
def parseDigits : List Char → Option (Nat × List Char)
  | [] => Option.none
  | c :: cs =>
    if c.isDigit then some (digitsAcc (c.toNat - 48) cs) else Option.none

mutual

/-- Fueled recursive-descent JSON value reader, modelling `json.loads`. -/
def parseVal : Nat → List Char → Option (PyVal × List Char)
  | 0, _ => Option.none
  | fuel + 1, cs =>
    match skipWs cs with
    | [] => Option.none
    | c :: rest =>
      if c == '"' then
        (parseStrChars rest).map (fun p => (PyVal.str (String.mk p.1), p.2))
      else if c == 'n' then
        (dropLit "ull".data rest).map (fun r => (PyVal.none, r))
      else if c == 't' then
        (dropLit "rue".data rest).map (fun r => (PyVal.bool true, r))
      else if c == 'f' then
        (dropLit "alse".data rest).map (fun r => (PyVal.bool false, r))
      else if c == '[' then
        match skipWs rest with
        | ']' :: rest2 => some (PyVal.list [], rest2)
        | other =>
          match parseItems fuel other with
          | some (xs, rest2) => some (PyVal.list xs, rest2)
          | Option.none => Option.none
      else if c == '\x7b' then
        match skipWs rest with
        | '\x7d' :: rest2 => some (PyVal.dict [], rest2)
        | other =>
          match parseMembers fuel other with
          | some (ms, rest2) => some (PyVal.dict ms, rest2)
          | Option.none => Option.none
      else if c == '-' then
        (parseDigits rest).map (fun p => (PyVal.int (-(p.1 : Int)), p.2))
      else
        (parseDigits (c :: rest)).map (fun p => (PyVal.int (p.1 : Int), p.2))

/-- Comma-separated JSON array items up to the closing bracket. -/
def parseItems : Nat → List Char → Option (List PyVal × List Char)
  | 0, _ => Option.none
  | fuel + 1, cs =>
    match parseVal fuel cs with
    | Option.none => Option.none
    | some (v, rest) =>
      match skipWs rest with
      | ',' :: rest2 =>
        (match parseItems fuel rest2 with
         | some (vs, rest3) => some (v :: vs, rest3)
         | Option.none => Option.none)
      | ']' :: rest2 => some ([v], rest2)
      | _ => Option.none

/-- Comma-separated JSON object members up to the closing brace. -/
def parseMembers : Nat → List Char → Option (List (String × PyVal) × List Char)
  | 0, _ => Option.none
  | fuel + 1, cs =>
    match skipWs cs with
    | '"' :: rest =>
      (match parseStrChars rest with
       | Option.none => Option.none
       | some (kcs, rest2) =>
         match skipWs rest2 with
         | ':' :: rest3 =>
           (match parseVal fuel rest3 with
            | Option.none => Option.none
            | some (v, rest4) =>
              match skipWs rest4 with
              | ',' :: rest5 =>
                (match parseMembers fuel rest5 with
                 | some (ms, rest6) => some ((String.mk kcs, v) :: ms, rest6)
                 | Option.none => Option.none)
              | '\x7d' :: rest5 => some ([(String.mk kcs, v)], rest5)
              | _ => Option.none)
         | _ => Option.none)
    | _ => Option.none

end

/-- `json.loads` applied to a string: parse a full JSON document, rejecting
trailing garbage. -/
def json_loads_str (s : String) : Except PyErr PyVal :=
  match parseVal (s.length + 1) s.data with
  | some (v, rest) =>
    if (skipWs rest).isEmpty then Except.ok v else Except.error PyErr.jsonDecodeError
  | Option.none => Except.error PyErr.jsonDecodeError

/-- `json.loads`: raises `TypeError` unless the argument is a string. -/
def json_loads (v : PyVal) : Except PyErr PyVal :=
  match v with
  | PyVal.str s => json_loads_str s
  | _ => Except.error PyErr.typeError

/-- Python `value.get(key, default)`: only dicts have `.get`; any other
receiver raises `AttributeError`. -/
def pyGet (v : PyVal) (key : String) (dflt : PyVal) : Except PyErr PyVal :=
  match v with
  | PyVal.dict es => Except.ok (((es.find? (fun e => e.1 == key)).map (fun e => e.2)).getD dflt)
  | _ => Except.error PyErr.attributeError

/-- Python truthiness: `None`, `False`, `0`, the empty string, the empty
list and the empty dict are falsy. -/
def isFalsy : PyVal → Bool
  | PyVal.none => true
  | PyVal.bool b => !b
  | PyVal.int n => n == 0
  | PyVal.str s => s.isEmpty
  | PyVal.list xs => xs.isEmpty
  | PyVal.dict es => es.isEmpty

/-- Python `==` between a `str` and an arbitrary value: equality for strings,
`False` for every other type (no exception). -/
def pyEqStr (s : String) (v : PyVal) : Bool :=
  match v with
  | PyVal.str t => s == t
  | _ => false

/-- `default_match_fn` (client.py lines 16-26), fallible exactly where the
Python code can raise:

    body = json.loads(raw_sqs_message.get('Body', {}))
    attributes = body.get('MessageAttributes', {})
    snqueue_response_metadata = json.loads(
        attributes.get('SnQueueResponseMetadata', {}).get('Value', ""))
    if not snqueue_response_metadata:
      return False
    return message_id == snqueue_response_metadata.get('RequestId')
-/
def default_match_fn (message_id : String) (raw_sqs_message : PyVal) :
    Except PyErr Bool := do
  let bodyText ← pyGet raw_sqs_message "Body" (PyVal.dict [])
  let body ← json_loads bodyText
  let attributes ← pyGet body "MessageAttributes" (PyVal.dict [])
  let metaAttr ← pyGet attributes "SnQueueResponseMetadata" (PyVal.dict [])
  let metaText ← pyGet metaAttr "Value" (PyVal.str "")
  let snqueue_response_metadata ← json_loads metaText
  if isFalsy snqueue_response_metadata then
    return false
  let requestId ← pyGet snqueue_response_metadata "RequestId" PyVal.none
  return pyEqStr message_id requestId

/-! ### Resource Registry (`ResourceSingleton`, client.py lines 28-37)

`ResourceSingleton.__call__` keeps a process-wide dict
`_resource_instances : resource → instance`; on a call it constructs the
instance only when the key is absent and then returns the stored instance.
Instances are modelled by the ghost serial number they were constructed
with. -/

/-- Lookup in `cls._resource_instances` (dict membership plus indexing by a
key). -/
def lookupResource {K : Type} [DecidableEq K] (k : K) :
    List (K × Nat) → Option Nat
  | [] => Option.none
  | e :: rest => if e.1 = k then some e.2 else lookupResource k rest

/-- The `_resource_instances` dict (insertion-ordered association list) plus
the serial number the next constructed instance would receive. -/
structure Registry (K : Type) where
  table : List (K × Nat)
  next : Nat
deriving Repr, DecidableEq

/-- The registry before any instance was requested. -/
def emptyRegistry (K : Type) : Registry K := ⟨[], 0⟩

/-- `ResourceSingleton.__call__` (client.py lines 30-37): construct the
instance on first access, then always return the stored one. -/
def registryGet {K : Type} [DecidableEq K] (k : K) (r : Registry K) :
    Nat × Registry K :=
  match lookupResource k r.table with
  | some v => (v, r)
  | Option.none => (r.next, ⟨r.table ++ [(k, r.next)], r.next + 1⟩)

/-- Registry states reachable from the empty registry by any sequence of
constructor calls. -/
inductive RegReachable {K : Type} [DecidableEq K] : Registry K → Prop
  | init : RegReachable (emptyRegistry K)
  | get (k : K) (r : Registry K) : RegReachable r → RegReachable (registryGet k r).2

/-- Registry invariant: one binding per key, one key per instance, and all
instance serial numbers below the allocation counter. -/
structure RegInv {K : Type} (r : Registry K) : Prop where
  keys_nd : (r.table.map Prod.fst).Nodup
  vals_nd : (r.table.map Prod.snd).Nodup
  vals_lt : ∀ e ∈ r.table, e.2 < r.next

/-! ### `SqsReceiveMessageArgs` (sqs_client.py lines 5-8) -/

/-- The declared default of `MaxNumberOfMessages`:
`MaxNumberOfMessages: Optional[int] = Field(1, gt=1, le=10)`. -/
def maxNumberOfMessagesDefault : Int := 1

/-- The validation constraint pydantic attaches to `MaxNumberOfMessages`:
`gt=1, le=10`, i.e. strictly greater than 1 and at most 10.  An explicitly
supplied value outside this range is rejected with a validation error. -/
def maxNumberOfMessagesValid (n : Int) : Bool :=
  decide (1 < n) && decide (n ≤ 10)

/-! ### Concrete traces used by the witnesses -/

/-- A concrete matcher over string payloads: the payload is the correlation
id itself. -/
def mfEq : MatchFn String := fun w m => w == m

/-- Waiter `r1` registered on a fresh engine. -/
def regState : EngineState String := registerStep "r1" (initState String)

/-- After a poll that pulled `["r1", "x"]`: the first message matches the
registered wait, the second does not. -/
def polledState : EngineState String := (pollStep mfEq ["r1", "x"] regState).1

/-- After waiter `r1` scanned the pool and claimed its reply. -/
def claimedState : EngineState String := (scanStep mfEq "r1" polledState).2

/-- A second request/claim round followed by teardown, exercising both a
flush inside a poll cycle and the `__aexit__` flush. -/
def teardownState : EngineState String :=
  (aexitStep
    (scanStep mfEq "r2"
      (pollStep mfEq ["r2"]
        (registerStep "r2" (pollStep mfEq ["y"] claimedState).1)).1).2).1

/-- A pool with one non-matching message ahead of two matching ones, for the
scan-order witness. -/
def scanOrderState : EngineState String :=
  { inqueue := [⟨0, "x"⟩, ⟨1, "r"⟩, ⟨2, "r"⟩],
    processed := [], waiting := ["r"], counter := 3, deleted := [], claims := [] }

/-- A well-formed reply body: JSON text whose
`MessageAttributes.SnQueueResponseMetadata.Value` is itself JSON text
carrying `RequestId = "abc"`. -/
def goodBody : String :=
  "\x7b\"MessageAttributes\": \x7b\"SnQueueResponseMetadata\": \x7b\"Value\": \"\x7b\\\"RequestId\\\": \\\"abc\\\"\x7d\"\x7d\x7d\x7d"

/-- A parsable body whose attributes carry no `SnQueueResponseMetadata`
entry, so the inner `.get` chain yields the default `""`. -/
def noMetaBody : String := "\x7b\"MessageAttributes\": \x7b\x7d\x7d"

/-! ### Helper lemmas -/

lemma tags_append {M : Type} (l₁ l₂ : List (Tagged M)) :
    tags (l₁ ++ l₂) = tags l₁ ++ tags l₂ := by
  simp [tags]

lemma mem_tags {M : Type} {t : Nat} {l : List (Tagged M)} :
    t ∈ tags l ↔ ∃ x ∈ l, x.tag = t := by
  simp [tags]

/-- A successful `scanQueue` run decomposes the pool into a prefix of
non-matching messages, the first matching message, and the untouched
suffix. -/
lemma scanQueue_split {M : Type} (mf : MatchFn M) (w : String) :
    ∀ (l : List (Tagged M)) (m : Tagged M) (rest : List (Tagged M)),
      scanQueue mf w l = some (m, rest) →
      ∃ l₁ l₂, l = l₁ ++ m :: l₂ ∧ rest = l₁ ++ l₂ ∧
        (∀ x ∈ l₁, mf w x.payload = false) ∧ mf w m.payload = true := by
  intro l
  induction l with
  | nil => intro m rest h; simp [scanQueue] at h
  | cons a as ih =>
    intro m rest h
    by_cases ha : mf w a.payload = true
    · rw [scanQueue, if_pos ha] at h
      obtain ⟨rfl, rfl⟩ := Prod.mk.injEq .. ▸ Option.some.injEq .. ▸ h
      exact ⟨[], as, by simp, by simp, by simp, ha⟩
    · rw [scanQueue, if_neg ha] at h
      cases hs : scanQueue mf w as with
      | none => rw [hs] at h; exact absurd h (by simp)
      | some p =>
        obtain ⟨x, rest2⟩ := p
        rw [hs] at h
        simp only [Option.some.injEq, Prod.mk.injEq] at h
        obtain ⟨rfl, rfl⟩ := h
        obtain ⟨l₁, l₂, rfl, rfl, hl₁, hm⟩ := ih x rest2 hs
        refine ⟨a :: l₁, l₂, by simp, by simp, ?_, hm⟩
        intro y hy
        rcases List.mem_cons.mp hy with rfl | hy2
        · exact Bool.eq_false_iff.mpr ha
        · exact hl₁ y hy2

/-- The inner waiting-set loop equals `List.any`. -/
lemma innerScan_eq_any {M : Type} (mf : MatchFn M) (m : M) :
    ∀ ws : List String, innerScan mf ws m = ws.any (fun w => mf w m) := by
  intro ws
  induction ws with
  | nil => rfl
  | cons w ws ih =>
    by_cases h : mf w m = true <;> simp [innerScan, h, ih]

/-- The partition loop of `_poll_messages` computes the two filters of the
pulled batch. -/
lemma classify_eq_filter {M : Type} (mf : MatchFn M) (waiting : List String) :
    ∀ l : List (Tagged M),
      classify mf waiting l =
        (l.filter (fun m => innerScan mf waiting m.payload),
         l.filter (fun m => !(innerScan mf waiting m.payload))) := by
  intro l
  induction l with
  | nil => rfl
  | cons a as ih =>
    by_cases h : innerScan mf waiting a.payload = true <;>
      simp [classify, h, ih, List.filter_cons]

lemma tagAll_length {M : Type} : ∀ (l : List M) (start : Nat),
    (tagAll start l).length = l.length := by
  intro l
  induction l with
  | nil => intro start; rfl
  | cons a as ih => intro start; simp [tagAll, ih]

lemma mem_tagAll_bound {M : Type} : ∀ (l : List M) (start : Nat) (x : Tagged M),
    x ∈ tagAll start l → start ≤ x.tag ∧ x.tag < start + l.length := by
  intro l
  induction l with
  | nil => intro start x hx; simp [tagAll] at hx
  | cons a as ih =>
    intro start x hx
    have hlen : (a :: as).length = as.length + 1 := rfl
    rcases List.mem_cons.mp hx with rfl | hx2
    · simp [hlen]
    · have := ih (start + 1) x hx2
      omega

lemma tagAll_tags_nodup {M : Type} : ∀ (l : List M) (start : Nat),
    (tags (tagAll start l)).Nodup := by
  intro l
  induction l with
  | nil => intro start; simp [tagAll, tags]
  | cons a as ih =>
    intro start
    simp only [tagAll, tags, List.map_cons, List.nodup_cons]
    refine ⟨?_, ih (start + 1)⟩
    intro hmem
    obtain ⟨x, hx, hxt⟩ := mem_tags.mp hmem
    have := (mem_tagAll_bound as (start + 1) x hx).1
    omega

/-- Tags of a filtered sublist keep the nodup and membership properties of
the original tags. -/
lemma tags_filter_sublist {M : Type} (p : Tagged M → Bool) (l : List (Tagged M)) :
    List.Sublist (tags (l.filter p)) (tags l) :=
  List.Sublist.map Tagged.tag (List.filter_sublist l)

lemma claimTags_append {M : Type} (l : List (String × Tagged M)) (w : String)
    (m : Tagged M) : claimTags (l ++ [(w, m)]) = claimTags l ++ [m.tag] := by
  simp [claimTags]

/-! ### Invariant preservation -/

lemma inv_init {M : Type} : Inv (initState M) := by
  constructor <;> simp [initState, tags, claimTags]

lemma inv_register {M : Type} (w : String) (s : EngineState M) (h : Inv s) :
    Inv (registerStep w s) := by
  unfold registerStep
  by_cases hw : w ∈ s.waiting
  · simpa [hw] using h
  · simp only [hw, if_neg, if_false]
    exact ⟨h.inq_lt, h.proc_lt, h.del_lt, h.cl_lt, h.inq_nd, h.proc_nd, h.del_nd,
      h.cl_nd, h.inq_proc, h.inq_del, h.inq_cl, h.proc_del⟩

lemma inv_cancel {M : Type} (w : String) (s : EngineState M) (h : Inv s) :
    Inv (cancelStep w s) := h

lemma inv_aenter {M : Type} (s : EngineState M) (h : Inv s) :
    Inv (aenterStep s) := by
  refine ⟨?_, ?_, ?_, ?_, ?_, ?_, ?_, ?_, ?_, ?_, ?_, ?_⟩
  · intro t ht; simp [aenterStep, tags] at ht
  · intro t ht; simp [aenterStep, tags] at ht
  · exact fun t ht => h.del_lt t ht
  · exact fun t ht => h.cl_lt t ht
  · simp [aenterStep, tags]
  · simp [aenterStep, tags]
  · exact h.del_nd
  · exact h.cl_nd
  · intro t ht; simp [aenterStep, tags] at ht
  · intro t ht; simp [aenterStep, tags] at ht
  · intro t ht; simp [aenterStep, tags] at ht
  · intro t ht; simp [aenterStep, tags] at ht

lemma inv_scan {M : Type} (mf : MatchFn M) (w : String) (s : EngineState M)
    (h : Inv s) : Inv (scanStep mf w s).2 := by
  cases hq : scanQueue mf w s.inqueue with
  | none => simpa [scanStep, hq] using h
  | some p =>
    obtain ⟨m, rest⟩ := p
    obtain ⟨l₁, l₂, hsplit, hrest, -, -⟩ := scanQueue_split mf w s.inqueue m rest hq
    have hmem : m ∈ s.inqueue := by rw [hsplit]; simp
    have hmtag : m.tag ∈ tags s.inqueue := mem_tags.mpr ⟨m, hmem, rfl⟩
    have htags_eq : tags s.inqueue = tags l₁ ++ m.tag :: tags l₂ := by
      rw [hsplit]; simp [tags]
    have hrest_tags : tags rest = tags l₁ ++ tags l₂ := by
      rw [hrest]; simp [tags]
    have hnd : (tags l₁ ++ m.tag :: tags l₂).Nodup := htags_eq ▸ h.inq_nd
    have hnd2 : (m.tag :: (tags l₁ ++ tags l₂)).Nodup := List.nodup_middle.mp hnd
    have hm_notin_rest : m.tag ∉ tags rest := by
      rw [hrest_tags]; exact (List.nodup_cons.mp hnd2).1
    have hrest_nd : (tags rest).Nodup := by
      rw [hrest_tags]; exact (List.nodup_cons.mp hnd2).2
    have hrest_sub : ∀ t ∈ tags rest, t ∈ tags s.inqueue := by
      intro t ht
      rw [hrest_tags] at ht
      rw [htags_eq]
      simp only [List.mem_append, List.mem_cons] at ht ⊢
      tauto
    simp only [scanStep, hq]
    refine ⟨?_, ?_, ?_, ?_, ?_, ?_, ?_, ?_, ?_, ?_, ?_, ?_⟩
    · exact fun t ht => h.inq_lt t (hrest_sub t ht)
    · intro t ht
      rw [tags_append] at ht
      rcases List.mem_append.mp ht with ht | ht
      · exact h.proc_lt t ht
      · simp only [tags, List.map_cons, List.map_nil, List.mem_singleton] at ht
        exact ht ▸ h.inq_lt m.tag hmtag
    · exact h.del_lt
    · intro t ht
      rw [claimTags_append] at ht
      rcases List.mem_append.mp ht with ht | ht
      · exact h.cl_lt t ht
      · exact (List.mem_singleton.mp ht) ▸ h.inq_lt m.tag hmtag
    · exact hrest_nd
    · rw [tags_append]
      refine List.nodup_append.mpr ⟨h.proc_nd, ?_, ?_⟩
      · simp [tags]
      · intro t ht ht2
        simp only [tags, List.map_cons, List.map_nil, List.mem_singleton] at ht2
        exact h.inq_proc m.tag hmtag (ht2 ▸ ht)
    · exact h.del_nd
    · rw [claimTags_append]
      refine List.nodup_append.mpr ⟨h.cl_nd, by simp, ?_⟩
      intro t ht ht2
      exact h.inq_cl m.tag hmtag ((List.mem_singleton.mp ht2) ▸ ht)
    · intro t ht
      rw [tags_append, List.mem_append]
      rintro (h2 | h2)
      · exact h.inq_proc t (hrest_sub t ht) h2
      · simp only [tags, List.map_cons, List.map_nil, List.mem_singleton] at h2
        exact hm_notin_rest (h2 ▸ ht)
    · exact fun t ht => h.inq_del t (hrest_sub t ht)
    · intro t ht
      rw [claimTags_append, List.mem_append]
      rintro (h2 | h2)
      · exact h.inq_cl t (hrest_sub t ht) h2
      · exact hm_notin_rest ((List.mem_singleton.mp h2) ▸ ht)
    · intro t ht
      rw [tags_append] at ht
      rcases List.mem_append.mp ht with ht | ht
      · exact h.proc_del t ht
      · simp only [tags, List.map_cons, List.map_nil, List.mem_singleton] at ht
        exact ht ▸ h.inq_del m.tag hmtag

lemma inv_poll {M : Type} (mf : MatchFn M) (incoming : List M)
    (s : EngineState M) (h : Inv s) : Inv (pollStep mf incoming s).1 := by
  by_cases hg : s.inqueue.length ≠ 0
  · simpa [pollStep, hg] using h
  · have hfresh : ∀ t ∈ tags (tagAll s.counter incoming), s.counter ≤ t := by
      intro t ht
      obtain ⟨x, hx, hxt⟩ := mem_tags.mp ht
      exact hxt ▸ (mem_tagAll_bound incoming s.counter x hx).1
    have hfresh2 : ∀ t ∈ tags (tagAll s.counter incoming),
        t < s.counter + incoming.length := by
      intro t ht
      obtain ⟨x, hx, hxt⟩ := mem_tags.mp ht
      exact hxt ▸ (mem_tagAll_bound incoming s.counter x hx).2
    have hmatched_sub : ∀ t ∈ tags ((tagAll s.counter incoming).filter
        (fun m => innerScan mf s.waiting m.payload)),
        t ∈ tags (tagAll s.counter incoming) :=
      fun t ht => (tags_filter_sublist _ _).subset ht
    simp only [pollStep, if_neg hg, classify_eq_filter]
    refine ⟨?_, ?_, ?_, ?_, ?_, ?_, ?_, ?_, ?_, ?_, ?_, ?_⟩
    · exact fun t ht => hfresh2 t (hmatched_sub t ht)
    · intro t ht; simp [tags] at ht
    · intro t ht
      rw [tags_append] at ht
      have hlt : t < s.counter := by
        rcases List.mem_append.mp ht with ht | ht
        · exact h.del_lt t ht
        · exact h.proc_lt t ht
      show t < s.counter + incoming.length
      omega
    · intro t ht
      have hlt := h.cl_lt t ht
      show t < s.counter + incoming.length
      omega
    · exact (tagAll_tags_nodup incoming s.counter).sublist (tags_filter_sublist _ _)
    · simp [tags]
    · rw [tags_append]
      refine List.nodup_append.mpr ⟨h.del_nd, h.proc_nd, ?_⟩
      exact fun t ht ht2 => h.proc_del t ht2 ht
    · exact h.cl_nd
    · intro t ht; simp [tags]
    · intro t ht ht2
      rw [tags_append] at ht2
      have hc := hfresh t (hmatched_sub t ht)
      rcases List.mem_append.mp ht2 with ht2 | ht2
      · have := h.del_lt t ht2; omega
      · have := h.proc_lt t ht2; omega
    · intro t ht ht2
      have hc := hfresh t (hmatched_sub t ht)
      have := h.cl_lt t ht2; omega
    · intro t ht; simp [tags] at ht

lemma inv_aexit {M : Type} (s : EngineState M) (h : Inv s) :
    Inv (aexitStep s).1 := by
  by_cases hg : s.processed.length ≠ 0
  · simp only [aexitStep, if_pos hg]
    refine ⟨h.inq_lt, ?_, ?_, h.cl_lt, h.inq_nd, ?_, ?_, h.cl_nd, ?_, ?_, h.inq_cl, ?_⟩
    · intro t ht; simp [tags] at ht
    · intro t ht
      rw [tags_append] at ht
      rcases List.mem_append.mp ht with ht | ht
      · exact h.del_lt t ht
      · exact h.proc_lt t ht
    · simp [tags]
    · rw [tags_append]
      refine List.nodup_append.mpr ⟨h.del_nd, h.proc_nd, ?_⟩
      exact fun t ht ht2 => h.proc_del t ht2 ht
    · intro t ht ht2; simp [tags] at ht2
    · intro t ht ht2
      rw [tags_append] at ht2
      rcases List.mem_append.mp ht2 with ht2 | ht2
      · exact h.inq_del t ht ht2
      · exact h.inq_proc t ht ht2
    · intro t ht; simp [tags] at ht
  · simpa [aexitStep, hg] using h

/-- Every reachable state satisfies the invariant. -/
lemma reachable_inv {M : Type} {mf : MatchFn M} {s : EngineState M}
    (h : Reachable mf s) : Inv s := by
  induction h with
  | init => exact inv_init
  | register w s _ ih => exact inv_register w s ih
  | scan w s _ ih => exact inv_scan mf w s ih
  | poll incoming s _ ih => exact inv_poll mf incoming s ih
  | aexit s _ ih => exact inv_aexit s ih
  | aenter s _ ih => exact inv_aenter s ih
  | cancel w s _ ih => exact inv_cancel w s ih

lemma length_filter_add_length_filter_not {α : Type} (p : α → Bool) :
    ∀ l : List α,
      (l.filter p).length + (l.filter (fun a => !(p a))).length = l.length := by
  intro l
  induction l with
  | nil => rfl
  | cons a as ih =>
    by_cases h : p a = true <;> simp [List.filter_cons, h] <;> omega

/-! ### Claim theorems for the correlation engine -/

/-- C1: in every reachable engine state, no two entries of the claim history
share a message (each pulled message is returned to at most one caller), and
a successful scan atomically moves its message from the Pulled pool to the
Claimed pool: the message is appended to `_processed_messages`, recorded as
this waiter's claim, and is no longer present in `_inqueue_messages`. -/
theorem reply_returned_to_at_most_one_caller {M : Type} (mf : MatchFn M)
    (s : EngineState M) (h : Reachable mf s) :
    (claimTags s.claims).Nodup ∧
    ∀ w m, (scanStep mf w s).1 = some m →
      (scanStep mf w s).2.processed = s.processed ++ [m] ∧
      (scanStep mf w s).2.claims = s.claims ++ [(w, m)] ∧
      m.tag ∉ tags (scanStep mf w s).2.inqueue := by
  have hinv := reachable_inv h
  refine ⟨hinv.cl_nd, ?_⟩
  intro w m hm
  cases hq : scanQueue mf w s.inqueue with
  | none => simp [scanStep, hq] at hm
  | some p =>
    obtain ⟨m2, rest⟩ := p
    have hm2 : m2 = m := by simpa [scanStep, hq] using hm
    subst hm2
    refine ⟨by simp [scanStep, hq], by simp [scanStep, hq], ?_⟩
    simp only [scanStep, hq]
    obtain ⟨l₁, l₂, hsplit, hrest, -, -⟩ := scanQueue_split mf w s.inqueue m2 rest hq
    have htags_eq : tags s.inqueue = tags l₁ ++ m2.tag :: tags l₂ := by
      rw [hsplit]; simp [tags]
    have hnd : (tags l₁ ++ m2.tag :: tags l₂).Nodup := htags_eq ▸ hinv.inq_nd
    have hnd2 : (m2.tag :: (tags l₁ ++ tags l₂)).Nodup := List.nodup_middle.mp hnd
    show m2.tag ∉ tags rest
    rw [hrest, tags_append]
    exact (List.nodup_cons.mp hnd2).1

/-- C1 witness: a concrete register/poll/claim round. -/
theorem reply_returned_witness : (claimTags claimedState.claims).Nodup :=
  (reply_returned_to_at_most_one_caller mfEq claimedState
    (Reachable.scan "r1" polledState
      (Reachable.poll ["r1", "x"] regState
        (Reachable.register "r1" (initState String) Reachable.init)))).1

/-- C2: in every reachable engine state the delete history is duplicate-free
(no message is ever passed to `delete_messages` twice in the engine's
lifetime), and whenever a poll cycle or the teardown issues a delete batch,
the Claimed pool is empty immediately afterwards. -/
theorem claimed_deleted_at_most_once {M : Type} (mf : MatchFn M)
    (s : EngineState M) (h : Reachable mf s) :
    (tags s.deleted).Nodup ∧
    (∀ incoming, (pollStep mf incoming s).2.deletedBatch ≠ [] →
      (pollStep mf incoming s).1.processed = []) ∧
    (aexitStep s).1.processed = [] := by
  refine ⟨(reachable_inv h).del_nd, ?_, ?_⟩
  · intro incoming hne
    by_cases hg : s.inqueue.length ≠ 0
    · simp [pollStep, hg, noEvents] at hne
    · simp [pollStep, hg]
  · by_cases hg : s.processed.length ≠ 0
    · simp [aexitStep, hg]
    · simp only [aexitStep, if_neg hg]
      exact List.length_eq_zero.mp (not_not.mp hg)

/-- C2 witness: two request/claim rounds, one flushed by the second poll
cycle and one by `__aexit__`. -/
theorem claimed_deleted_witness : (tags teardownState.deleted).Nodup :=
  (claimed_deleted_at_most_once mfEq teardownState
    (Reachable.aexit _
      (Reachable.scan "r2" _
        (Reachable.poll ["r2"] _
          (Reachable.register "r2" _
            (Reachable.poll ["y"] _
              (Reachable.scan "r1" polledState
                (Reachable.poll ["r1", "x"] regState
                  (Reachable.register "r1" (initState String)
                    Reachable.init))))))))).1

/-- C3: a poll cycle that starts with an empty Pulled pool appends to the
pool exactly the pulled messages matching some waiting identifier (in pull
order) and visibility-changes exactly the others; the two groups are
disjoint and their sizes add up to the pulled batch size. -/
theorem poll_partitions_pulled_batch {M : Type} (mf : MatchFn M)
    (incoming : List M) (s : EngineState M) (h : s.inqueue = []) :
    (pollStep mf incoming s).1.inqueue
        = (tagAll s.counter incoming).filter
            (fun m => s.waiting.any (fun w => mf w m.payload)) ∧
    (pollStep mf incoming s).2.visChanged
        = (tagAll s.counter incoming).filter
            (fun m => !(s.waiting.any (fun w => mf w m.payload))) ∧
    (pollStep mf incoming s).1.inqueue.length
        + (pollStep mf incoming s).2.visChanged.length = incoming.length ∧
    ∀ m, m ∈ (pollStep mf incoming s).1.inqueue →
      m ∉ (pollStep mf incoming s).2.visChanged := by
  have hg : ¬ s.inqueue.length ≠ 0 := by simp [h]
  have hcongr : ∀ m ∈ tagAll s.counter incoming,
      innerScan mf s.waiting m.payload = s.waiting.any (fun w => mf w m.payload) :=
    fun m _ => innerScan_eq_any mf m.payload s.waiting
  have hcongr2 : ∀ m ∈ tagAll s.counter incoming,
      (!(innerScan mf s.waiting m.payload))
        = !(s.waiting.any (fun w => mf w m.payload)) :=
    fun m hm => by rw [hcongr m hm]
  have h1 : (pollStep mf incoming s).1.inqueue
      = (tagAll s.counter incoming).filter
          (fun m => s.waiting.any (fun w => mf w m.payload)) := by
    simp only [pollStep, if_neg hg, classify_eq_filter]
    exact List.filter_congr hcongr
  have h2 : (pollStep mf incoming s).2.visChanged
      = (tagAll s.counter incoming).filter
          (fun m => !(s.waiting.any (fun w => mf w m.payload))) := by
    simp only [pollStep, if_neg hg, classify_eq_filter]
    exact List.filter_congr hcongr2
  refine ⟨h1, h2, ?_, ?_⟩
  · rw [h1, h2, length_filter_add_length_filter_not, tagAll_length]
  · intro m hm hm2
    rw [h1] at hm
    rw [h2] at hm2
    have hp := (List.mem_filter.mp hm).2
    have hnp := (List.mem_filter.mp hm2).2
    rw [hp] at hnp
    exact absurd hnp (by simp)

/-- C3 witness: one registered wait, a pulled batch of two messages of which
one matches. -/
theorem poll_partition_witness :
    (pollStep mfEq ["a", "r1"] regState).1.inqueue
        = (tagAll regState.counter ["a", "r1"]).filter
            (fun m => regState.waiting.any (fun w => mfEq w m.payload)) ∧
    (pollStep mfEq ["a", "r1"] regState).2.visChanged
        = (tagAll regState.counter ["a", "r1"]).filter
            (fun m => !(regState.waiting.any (fun w => mfEq w m.payload))) ∧
    (pollStep mfEq ["a", "r1"] regState).1.inqueue.length
        + (pollStep mfEq ["a", "r1"] regState).2.visChanged.length = 2 := by
  have h := poll_partitions_pulled_batch mfEq ["a", "r1"] regState rfl
  exact ⟨h.1, h.2.1, h.2.2.1⟩

/-- C7: a poll cycle triggered while the Pulled pool is non-empty is a
complete no-op: the state (all three pools included) is unchanged and no
delete, pull, or visibility-change transport call is made. -/
theorem poll_noop_when_pool_nonempty {M : Type} (mf : MatchFn M)
    (incoming : List M) (s : EngineState M) (h : s.inqueue ≠ []) :
    pollStep mf incoming s = (s, noEvents M) := by
  have hg : s.inqueue.length ≠ 0 := fun hc => h (List.length_eq_zero.mp hc)
  simp [pollStep, hg]

/-- C7 witness: a poll triggered on a state whose pool holds an undrained
message. -/
theorem poll_noop_witness :
    pollStep mfEq ["z"] polledState = (polledState, noEvents String) :=
  poll_noop_when_pool_nonempty mfEq ["z"] polledState (by decide)

/-- C8: when a waiter's scan claims a message, that message is the first one
in pool insertion order satisfying the matcher: the pool splits into a
prefix of non-matching messages followed by the claimed message, and the
scan removes exactly that occurrence. -/
theorem first_match_wins_by_pool_order {M : Type} (mf : MatchFn M)
    (w : String) (s : EngineState M) (m : Tagged M)
    (h : (scanStep mf w s).1 = some m) :
    ∃ l₁ l₂, s.inqueue = l₁ ++ m :: l₂ ∧ mf w m.payload = true ∧
      (∀ x ∈ l₁, mf w x.payload = false) ∧
      (scanStep mf w s).2.inqueue = l₁ ++ l₂ := by
  cases hq : scanQueue mf w s.inqueue with
  | none => simp [scanStep, hq] at h
  | some p =>
    obtain ⟨m2, rest⟩ := p
    have hm2 : m2 = m := by simpa [scanStep, hq] using h
    subst hm2
    simp only [scanStep, hq]
    obtain ⟨l₁, l₂, hsplit, hrest, hl₁, hmm⟩ := scanQueue_split mf w s.inqueue m2 rest hq
    exact ⟨l₁, l₂, hsplit, hmm, hl₁, hrest⟩

/-- C8 witness: with pool `[x, r, r]` (insertion order) and matcher equality
with `"r"`, the scan claims the message at index 1, not the later
duplicate. -/
theorem first_match_witness :
    ∃ l₁ l₂, scanOrderState.inqueue = l₁ ++ Tagged.mk 1 "r" :: l₂ ∧
      mfEq "r" (Tagged.mk 1 "r").payload = true ∧
      (∀ x ∈ l₁, mfEq "r" x.payload = false) ∧
      (scanStep mfEq "r" scanOrderState).2.inqueue = l₁ ++ l₂ :=
  first_match_wins_by_pool_order mfEq "r" scanOrderState (Tagged.mk 1 "r") rfl

/-- C4: contrary to the specified cleanup, a `request` whose timeout elapses
leaves its correlation identifier registered: cancellation runs no cleanup
code in `_get_response` (there is no try/finally), so after a register
followed by a timeout the Outstanding Wait set still contains the
identifier. -/
theorem timeout_leaves_wait_registered :
    (∀ (M : Type) (w : String) (s : EngineState M), cancelStep w s = s) ∧
    (cancelStep "r1" (registerStep "r1" (initState String))).waiting = ["r1"] :=
  ⟨fun _ _ _ => rfl, rfl⟩

/-- C5: contrary to the claim, `default_match_fn` raises on malformed
messages instead of returning false: a message without `Body` makes
`json.loads` raise `TypeError`, an unparsable `Body` raises
`JSONDecodeError`, and a body without correlation metadata feeds the
default `""` to `json.loads`, which raises `JSONDecodeError`.  For
well-formed messages it does return the equality of the embedded
`RequestId` with the correlation identifier. -/
theorem default_match_fn_raises_on_malformed :
    default_match_fn "abc" (PyVal.dict []) = Except.error PyErr.typeError ∧
    default_match_fn "abc" (PyVal.dict [("Body", PyVal.str "not json")])
      = Except.error PyErr.jsonDecodeError ∧
    default_match_fn "abc" (PyVal.dict [("Body", PyVal.str noMetaBody)])
      = Except.error PyErr.jsonDecodeError ∧
    default_match_fn "abc" (PyVal.dict [("Body", PyVal.str goodBody)])
      = Except.ok true ∧
    default_match_fn "xyz" (PyVal.dict [("Body", PyVal.str goodBody)])
      = Except.ok false :=
  ⟨rfl, rfl, rfl, rfl, rfl⟩

/-- C9: contrary to the claim, the `MaxNumberOfMessages` field constraint
`Field(1, gt=1, le=10)` is strict at the lower end: an explicit value 1 is
rejected even though 1 is the field's own declared default, while values in
(1, 10] are accepted and 11 is rejected. -/
theorem maxNumberOfMessages_one_rejected :
    maxNumberOfMessagesValid 1 = false ∧
    maxNumberOfMessagesValid maxNumberOfMessagesDefault = false ∧
    maxNumberOfMessagesValid 2 = true ∧
    maxNumberOfMessagesValid 10 = true ∧
    maxNumberOfMessagesValid 11 = false := by
  refine ⟨?_, ?_, ?_, ?_, ?_⟩ <;> decide

/-- C10: `__aenter__` unconditionally rebinds the Outstanding Wait set, the
Pulled Message pool, and the Claimed Message pool to empty, whatever state
the (singleton) instance was in, and issues no transport call: the delete
history and claim history are untouched, so pending claimed messages are
silently discarded rather than flushed. -/
theorem aenter_reinitializes_pools {M : Type} (s : EngineState M) :
    (aenterStep s).inqueue = [] ∧ (aenterStep s).processed = [] ∧
    (aenterStep s).waiting = [] ∧ (aenterStep s).deleted = s.deleted ∧
    (aenterStep s).claims = s.claims :=
  ⟨rfl, rfl, rfl, rfl, rfl⟩

/-! ### Resource Registry lemmas and claim C6 -/

lemma lookupResource_mem {K : Type} [DecidableEq K] (k : K) :
    ∀ (t : List (K × Nat)) (v : Nat), lookupResource k t = some v → (k, v) ∈ t := by
  intro t
  induction t with
  | nil => intro v h; simp [lookupResource] at h
  | cons e rest ih =>
    intro v h
    by_cases he : e.1 = k
    · rw [lookupResource, if_pos he] at h
      have hv : e.2 = v := by simpa using h
      have : e = (k, v) := by
        obtain ⟨e1, e2⟩ := e
        simp_all
      exact this ▸ List.mem_cons_self e rest
    · rw [lookupResource, if_neg he] at h
      exact List.mem_cons_of_mem e (ih v h)

lemma lookupResource_none {K : Type} [DecidableEq K] (k : K) :
    ∀ t : List (K × Nat), lookupResource k t = Option.none → ∀ e ∈ t, e.1 ≠ k := by
  intro t
  induction t with
  | nil => intro _ e he; simp at he
  | cons a rest ih =>
    intro h e he
    by_cases ha : a.1 = k
    · rw [lookupResource, if_pos ha] at h
      exact absurd h (by simp)
    · rw [lookupResource, if_neg ha] at h
      rcases List.mem_cons.mp he with rfl | he2
      · exact ha
      · exact ih h e he2

lemma lookupResource_append_left {K : Type} [DecidableEq K] (k : K) (v : Nat) :
    ∀ (t₁ t₂ : List (K × Nat)), lookupResource k t₁ = some v →
      lookupResource k (t₁ ++ t₂) = some v := by
  intro t₁ t₂
  induction t₁ with
  | nil => intro h; simp [lookupResource] at h
  | cons e rest ih =>
    intro h
    by_cases he : e.1 = k
    · rw [lookupResource, if_pos he] at h
      rw [List.cons_append, lookupResource, if_pos he]
      exact h
    · rw [lookupResource, if_neg he] at h
      rw [List.cons_append, lookupResource, if_neg he]
      exact ih h

lemma lookupResource_append_right {K : Type} [DecidableEq K] (k : K) :
    ∀ (t₁ t₂ : List (K × Nat)), lookupResource k t₁ = Option.none →
      lookupResource k (t₁ ++ t₂) = lookupResource k t₂ := by
  intro t₁ t₂
  induction t₁ with
  | nil => intro _; rfl
  | cons e rest ih =>
    intro h
    by_cases he : e.1 = k
    · rw [lookupResource, if_pos he] at h
      exact absurd h (by simp)
    · rw [lookupResource, if_neg he] at h
      rw [List.cons_append, lookupResource, if_neg he]
      exact ih h

lemma registryGet_found {K : Type} [DecidableEq K] (k : K) (r : Registry K)
    (v : Nat) (h : lookupResource k r.table = some v) :
    registryGet k r = (v, r) := by
  simp [registryGet, h]

lemma registryGet_missing {K : Type} [DecidableEq K] (k : K) (r : Registry K)
    (h : lookupResource k r.table = Option.none) :
    registryGet k r = (r.next, ⟨r.table ++ [(k, r.next)], r.next + 1⟩) := by
  simp [registryGet, h]

lemma regInv_empty {K : Type} : RegInv (emptyRegistry K) := by
  constructor <;> simp [emptyRegistry]

lemma regInv_get {K : Type} [DecidableEq K] (k : K) (r : Registry K)
    (h : RegInv r) : RegInv (registryGet k r).2 := by
  cases hl : lookupResource k r.table with
  | some v => simpa [registryGet, hl] using h
  | none =>
    simp only [registryGet, hl]
    refine ⟨?_, ?_, ?_⟩
    · rw [List.map_append]
      refine List.nodup_append.mpr ⟨h.keys_nd, by simp, ?_⟩
      intro x hx hx2
      simp only [List.map_cons, List.map_nil, List.mem_singleton] at hx2
      obtain ⟨e, he, rfl⟩ := List.mem_map.mp hx
      exact lookupResource_none k r.table hl e he hx2
    · rw [List.map_append]
      refine List.nodup_append.mpr ⟨h.vals_nd, by simp, ?_⟩
      intro x hx hx2
      simp only [List.map_cons, List.map_nil, List.mem_singleton] at hx2
      obtain ⟨e, he, rfl⟩ := List.mem_map.mp hx
      have := h.vals_lt e he
      omega
    · intro e he
      rcases List.mem_append.mp he with he2 | he2
      · have := h.vals_lt e he2
        show e.2 < r.next + 1
        omega
      · have : e = (k, r.next) := List.mem_singleton.mp he2
        rw [this]
        show r.next < r.next + 1
        omega

lemma regReachable_inv {K : Type} [DecidableEq K] {r : Registry K}
    (h : RegReachable r) : RegInv r := by
  induction h with
  | init => exact regInv_empty
  | get k r _ ih => exact regInv_get k r ih

/-- C6: the `ResourceSingleton` registry hands out one engine instance per
resource key: after a call for `k1`, the key is bound to the returned
instance; bindings persist across any later call; a call on an
already-bound key returns the bound instance and constructs nothing; a
call on an unbound key constructs an instance exactly then; and calls with
distinct keys return distinct instances. -/
theorem resource_singleton_per_key {K : Type} [DecidableEq K] (k1 k2 : K)
    (r : Registry K) (h : RegReachable r) :
    (k1 ≠ k2 → (registryGet k2 (registryGet k1 r).2).1 ≠ (registryGet k1 r).1) ∧
    lookupResource k1 ((registryGet k1 r).2).table = some (registryGet k1 r).1 ∧
    (∀ v, lookupResource k1 r.table = some v → registryGet k1 r = (v, r)) ∧
    (∀ (k0 : K) (v : Nat), lookupResource k1 r.table = some v →
        lookupResource k1 ((registryGet k0 r).2).table = some v) ∧
    (lookupResource k1 r.table = Option.none →
        (registryGet k1 r).2.table = r.table ++ [(k1, r.next)]) := by
  have hbound : lookupResource k1 ((registryGet k1 r).2).table
      = some (registryGet k1 r).1 := by
    cases hl : lookupResource k1 r.table with
    | some v => simp [registryGet, hl]
    | none =>
      simp only [registryGet, hl]
      rw [lookupResource_append_right k1 r.table [(k1, r.next)] hl]
      simp [lookupResource]
  refine ⟨?_, hbound, ?_, ?_, ?_⟩
  · intro hne
    have hinv1 : RegInv (registryGet k1 r).2 := regInv_get k1 r (regReachable_inv h)
    have hmem1 : (k1, (registryGet k1 r).1) ∈ ((registryGet k1 r).2).table :=
      lookupResource_mem k1 _ _ hbound
    cases hl2 : lookupResource k2 ((registryGet k1 r).2).table with
    | some v2 =>
      rw [registryGet_found k2 _ v2 hl2]
      intro hc
      have hmem2 : (k2, v2) ∈ ((registryGet k1 r).2).table :=
        lookupResource_mem k2 _ _ hl2
      have heq := List.inj_on_of_nodup_map hinv1.vals_nd hmem2 hmem1 hc
      exact hne (congrArg Prod.fst heq).symm
    | none =>
      rw [registryGet_missing k2 _ hl2]
      have hlt : (registryGet k1 r).1 < ((registryGet k1 r).2).next :=
        hinv1.vals_lt _ hmem1
      intro hc
      show False
      omega
  · intro v hl
    simp [registryGet, hl]
  · intro k0 v hl
    cases hl0 : lookupResource k0 r.table with
    | some v0 => simpa [registryGet, hl0] using hl
    | none =>
      simp only [registryGet, hl0]
      exact lookupResource_append_left k1 v r.table [(k0, r.next)] hl
  · intro hl
    simp [registryGet, hl]

/-- C6 witness: two distinct keys on the empty registry yield distinct
instances. -/
theorem resource_singleton_witness :
    (registryGet "b" (registryGet "a" (emptyRegistry String)).2).1
      ≠ (registryGet "a" (emptyRegistry String)).1 :=
  (resource_singleton_per_key "a" "b" (emptyRegistry String) RegReachable.init).1
    (by decide)

end Snqueue
